import Mathlib

/-!
Verification of the regex finite-state-machine engine (`regex.py`).

The Python program builds a graph of `State` objects (start, termination,
dot, ascii literal, character class, star, plus), each holding a
`next_states` list, and matches strings by simultaneous multi-state
simulation with a zero-width closure pass.

Embedding: the object graph is an arena `List Node`; a node's arena index
plays the role of Python object identity (each constructor call appends a
fresh node, so distinct objects get distinct indices and `==` on objects
becomes `=` on indices).  Python sets of states become lists of indices,
with membership the only operation used.  `ValueError` raise sites become
constructors of `RegexError`.  The two breadth-first searches are written
with explicit fuel returning `Option`; the bound `epsBound`/`termBound`
(worklist length plus total out-degree of the arena, plus one) is proved
sufficient below, which is the termination argument of the source.
-/

namespace Regex

/-- Data of `CharacterClassState.__init__`: `char_ranges`, `individual_chars`
(a Python set, embedded as a list used only through membership), `negated`. -/
structure CharClassData where
  char_ranges : List (Char × Char)
  individual_chars : List Char
  negated : Bool
deriving DecidableEq, Repr

/-- The scanning loop of `CharacterClassState.__init__` (lines 99-106):
while `i < len(spec)`: if `i + 2 < len(spec)` and `spec[i+1] == '-'` then
record the range `(spec[i], spec[i+2])` and advance by 3, else record
`spec[i]` as an individual character and advance by 1.  The loop is
embedded structurally: the head is `spec[i]`, the next two elements (when
present) are `spec[i+1]`, `spec[i+2]`. -/
def parseClassItems : List Char → List (Char × Char) × List Char
  | [] => ([], [])
  | [a] => ([], [a])
  | [a, b] =>
    let r := parseClassItems [b]
    (r.1, a :: r.2)
  | a :: b :: c :: rest2 =>
    if b = '-' then
      let r := parseClassItems rest2
      ((a, c) :: r.1, r.2)
    else
      let r := parseClassItems (b :: c :: rest2)
      (r.1, a :: r.2)

/-- `CharacterClassState.__init__` (lines 83-106): an optional leading `^`
sets `negated` and is stripped, then the body is scanned by
`parseClassItems`. -/
def characterClassState (class_spec : List Char) : CharClassData :=
  let negated := class_spec.head? = some '^'
  let body := if negated then class_spec.tail else class_spec
  let r := parseClassItems body
  ⟨r.1, r.2, negated⟩

/-- `CharacterClassState.check_self` (lines 108-120): `in_class` is first
the range test `ord(start) <= ord(char) <= ord(end)` over `char_ranges`;
if that fails, membership in `individual_chars`; the result is negated when
`negated` is set. -/
def classCheck (d : CharClassData) (c : Char) : Bool :=
  let inClass := d.char_ranges.any
    (fun p => decide (p.1.toNat ≤ c.toNat ∧ c.toNat ≤ p.2.toNat))
  let inClass2 := if inClass then inClass else d.individual_chars.contains c
  if d.negated then !inClass2 else inClass2

/-- The seven `State` subclasses.  `star`/`plus` store the arena index of
their `checking_state` (the wrapped previous construct). -/
inductive NodeKind where
  | start
  | termination
  | dot
  | ascii (symbol : Char)
  | charClass (data : CharClassData)
  | star (checking_state : Nat)
  | plus (checking_state : Nat)
deriving DecidableEq, Repr

/-- A state object: its variant and its `next_states` list (edges are arena
indices). -/
structure Node where
  kind : NodeKind
  next : List Nat
deriving DecidableEq, Repr

/-- The `ValueError` raise sites of `regex.py`: "Empty regex pattern",
"'*' cannot be used without a preceding character", "'+' cannot be used
without a preceding character", "Unclosed character class",
"Input string is required". -/
inductive RegexError where
  | emptyPattern
  | starNoPreceding
  | plusNoPreceding
  | unclosedClass
  | inputRequired
deriving DecidableEq, Repr

/-- Replace the `next` list of node `i` by `f` applied to it (models a
mutation of one object's `next_states`). -/
def setNext (nodes : List Node) (i : Nat) (f : List Nat → List Nat) : List Node :=
  match nodes, i with
  | [], _ => []
  | n :: ns, 0 => { n with next := f n.next } :: ns
  | n :: ns, j + 1 => n :: setNext ns j f

/-- `next_states` of the node at index `i` (empty for an out-of-range
index, which never occurs on compiled machines). -/
def nodeNext (nodes : List Node) (i : Nat) : List Nat :=
  match nodes[i]? with
  | some n => n.next
  | none => []

/-- `isinstance(state, StarState)` for the node at index `i`. -/
def isStarIdx (nodes : List Node) (i : Nat) : Bool :=
  match nodes[i]? with
  | some n => match n.kind with | .star _ => true | _ => false
  | none => false

/-- `isinstance(state, TerminationState)` for the node at index `i`. -/
def isTermIdx (nodes : List Node) (i : Nat) : Bool :=
  match nodes[i]? with
  | some n => match n.kind with | .termination => true | _ => false
  | none => false

/-- `check_self` of the node at index `i`, with fuel bounding the
delegation chain through `StarState`/`PlusState` `checking_state`
references. -/
def checkSelfFuel (nodes : List Node) : Nat → Nat → Char → Bool
  | 0, _, _ => false
  | fuel + 1, i, c =>
    match nodes[i]? with
    | none => false
    | some n =>
      match n.kind with
      | .start => false
      | .termination => false
      | .dot => true
      | .ascii symbol => symbol = c
      | .charClass d => classCheck d c
      | .star inner => checkSelfFuel nodes fuel inner c
      | .plus inner => checkSelfFuel nodes fuel inner c

/-- `check_self` of the node at index `i`.  `StarState`/`PlusState`
delegate to their `checking_state`; since the wrapped object is always
created before the wrapper, the `checking_state` index is strictly smaller
than the wrapper's, so the delegation chain from node `i` has length at
most `i + 1` and that fuel is exact on every compiled machine. -/
def checkSelf (nodes : List Node) (i : Nat) (c : Char) : Bool :=
  checkSelfFuel nodes (i + 1) i c

/-- A compiled machine: the arena of state objects.  Index 0 is always the
`StartState` created first in `RegexFSM.__init__`. -/
structure FSM where
  nodes : List Node
deriving DecidableEq, Repr

/-- Wire a freshly parsed character class into the graph (lines 220-226):
append the `CharacterClassState` built from `body`, link it from the
previous construct (or the start state), and push it on `states`. -/
def addClassNode (nodes : List Node) (states : List Nat) (body : List Char) :
    List Node × List Nat :=
  let idx := nodes.length
  let parent := states.headD 0
  let nodes1 := nodes ++ [⟨.charClass (characterClassState body), []⟩]
  let nodes2 := setNext nodes1 parent (fun l => l ++ [idx])
  (nodes2, idx :: states)

/-- The scanning loop of `RegexFSM.__init__` (lines 185-236).  `states` is
the Python `states` list with the most recent construct at the head (so
`states[-1]` is `states.headD 0`, `states[-2]` is `states.tail.headD 0`,
and `start_state` is index 0).  A `*`/`+` with an empty `states` falls
through to the literal branch exactly as in the source (`char == '*' and
states`); it is unreachable because a leading `*`/`+` is rejected before
the loop.

The source scans a `[` with an inner `while` loop (`j` runs to the first
`]`; falling off the end raises "Unclosed character class") and then
resumes the outer loop at `j + 1`.  That inner scan is flattened here into
the mode argument: `mode = some acc` means the scan is between a `[` and
its first following `]`, with `acc` the class body collected so far, so
running out of input in that mode is exactly `j >= len`. -/
def compileLoop (nodes : List Node) (states : List Nat) (mode : Option (List Char)) :
    List Char → Except RegexError (List Node × List Nat)
  | [] =>
    match mode with
    | some _ => .error .unclosedClass
    | none => .ok (nodes, states)
  | c :: rest =>
    match mode with
    | some acc =>
      if c = ']' then
        let r := addClassNode nodes states acc
        compileLoop r.1 r.2 none rest
      else
        compileLoop nodes states (some (acc ++ [c])) rest
    | none =>
      if c = '*' ∧ states ≠ [] then
        let prev := states.headD 0
        let star := nodes.length
        let parent := states.tail.headD 0
        let nodes1 := nodes ++ [⟨.star prev, []⟩]
        -- parent.next_states = [s for s in parent.next_states if s != prev_state]
        -- parent.next_states.append(star_state); star self-loop; states[-1] = star
        let nodes2 := setNext nodes1 parent (fun l => l.filter (fun s => s ≠ prev) ++ [star])
        let nodes3 := setNext nodes2 star (fun l => l ++ [star])
        compileLoop nodes3 (star :: states.tail) none rest
      else if c = '+' ∧ states ≠ [] then
        let prev := states.headD 0
        let plus := nodes.length
        let parent := states.tail.headD 0
        let nodes1 := nodes ++ [⟨.plus prev, []⟩]
        let nodes2 := setNext nodes1 parent (fun l => l.filter (fun s => s ≠ prev) ++ [plus])
        let nodes3 := setNext nodes2 plus (fun l => l ++ [plus])
        compileLoop nodes3 (plus :: states.tail) none rest
      else if c = '[' then
        compileLoop nodes states (some []) rest
      else
        let idx := nodes.length
        let parent := states.headD 0
        let kind := if c = '.' then NodeKind.dot else NodeKind.ascii c
        let nodes1 := nodes ++ [⟨kind, []⟩]
        let nodes2 := setNext nodes1 parent (fun l => l ++ [idx])
        compileLoop nodes2 (idx :: states) none rest

/-- `RegexFSM.__init__` (lines 164-242): the three validity checks, the
scanning loop starting from the arena holding only the `StartState`, and
the final `TerminationState` wired from the last construct (or from the
start state when no construct was built). -/
def compile (regex_expr : List Char) : Except RegexError FSM :=
  if regex_expr = [] then .error .emptyPattern
  else if regex_expr.head? = some '*' then .error .starNoPreceding
  else if regex_expr.head? = some '+' then .error .plusNoPreceding
  else
    match compileLoop [⟨.start, []⟩] [] none regex_expr with
    | .error e => .error e
    | .ok (nodes, states) =>
      let term := nodes.length
      let nodes1 := nodes ++ [⟨.termination, []⟩]
      let nodes2 := setNext nodes1 (states.headD 0) (fun l => l ++ [term])
      .ok ⟨nodes2⟩

/-- First inner loop of `_add_epsilon_transitions` (lines 296-301), run
when the popped state is a `StarState`: for each successor equal to the
state itself and not yet in `res`, add it to `res` and, when unvisited,
append it to the worklist.  `rw` is the pair (res, worklist). -/
def epsFirstBlock (rw : List Nat × List Nat) (visited : List Nat) (s : Nat)
    (succ : List Nat) : List Nat × List Nat :=
  succ.foldl
    (fun rw ns =>
      if ns = s ∧ ¬ rw.1.contains ns then
        (rw.1 ++ [ns], if ¬ visited.contains ns then rw.2 ++ [ns] else rw.2)
      else rw)
    rw

/-- Second inner loop of `_add_epsilon_transitions` (lines 303-306): each
`StarState` successor not yet visited is added to `res` (idempotently, as
for a Python set) and appended to the worklist. -/
def epsSecondBlock (nodes : List Node) (rw : List Nat × List Nat)
    (visited : List Nat) (succ : List Nat) : List Nat × List Nat :=
  succ.foldl
    (fun rw ns =>
      if isStarIdx nodes ns ∧ ¬ visited.contains ns then
        ((if rw.1.contains ns then rw.1 else rw.1 ++ [ns]), rw.2 ++ [ns])
      else rw)
    rw

/-- The worklist loop of `_add_epsilon_transitions` (lines 289-308), with
explicit fuel; `none` means the fuel ran out (proved impossible below for
fuel `epsBound`).  States are popped from the front and appended at the
back, as with Python's `list.pop(0)` / `append`. -/
def epsAux (nodes : List Node) : Nat → List Nat → List Nat → List Nat → Option (List Nat)
  | 0, _, _, _ => none
  | _ + 1, res, [], _ => some res
  | fuel + 1, res, s :: wl, visited =>
    if visited.contains s then epsAux nodes fuel res wl visited
    else
      let visited' := s :: visited
      let rw1 := if isStarIdx nodes s
        then epsFirstBlock (res, wl) visited' s (nodeNext nodes s)
        else (res, wl)
      let rw2 := epsSecondBlock nodes rw1 visited' (nodeNext nodes s)
      epsAux nodes fuel rw2.1 rw2.2 visited'

/-- Out-degree of node `i` (length of its `next_states`). -/
def outDeg (nodes : List Node) (i : Nat) : Nat := (nodeNext nodes i).length

/-- Total out-degree of the arena nodes not yet visited.  This is the part
of the termination potential contributed by edges still explorable. -/
def unvisitedEdges (nodes : List Node) (visited : List Nat) : Nat :=
  Finset.sum (Finset.range nodes.length)
    (fun i => if i ∈ visited then 0 else outDeg nodes i)

/-- Sufficient fuel for `epsAux` from a fresh visited set: initial worklist
length plus the total out-degree of the arena, plus one. -/
def epsBound (nodes : List Node) (states : List Nat) : Nat :=
  states.length + unvisitedEdges nodes [] + 1

/-- `_add_epsilon_transitions` (lines 276-308): `res = set(states)`,
`worklist = list(states)`, `visited = set()`, then the worklist loop.  The
`.getD` default is never taken: `epsBound` fuel is proved sufficient. -/
def addEpsilonTransitions (nodes : List Node) (states : List Nat) : List Nat :=
  (epsAux nodes (epsBound nodes states) states states []).getD states

/-- The queue loop of `_can_terminate_without_input` (lines 322-335), with
explicit fuel: pop a state, skip it when visited, succeed when one of its
successors is a `TerminationState`, otherwise enqueue its unvisited
`StarState` successors. -/
def termAux (nodes : List Node) : Nat → List Nat → List Nat → Option Bool
  | 0, _, _ => none
  | _ + 1, [], _ => some false
  | fuel + 1, s :: q, visited =>
    if visited.contains s then termAux nodes fuel q visited
    else
      let visited' := s :: visited
      if (nodeNext nodes s).any (fun n => isTermIdx nodes n) then some true
      else
        termAux nodes fuel
          (q ++ (nodeNext nodes s).filter
            (fun n => isStarIdx nodes n ∧ ¬ visited'.contains n))
          visited'

/-- Sufficient fuel for `termAux` from a fresh visited set. -/
def termBound (nodes : List Node) (states : List Nat) : Nat :=
  states.length + unvisitedEdges nodes [] + 1

/-- `_can_terminate_without_input` (lines 310-335); the `.getD` default is
never taken. -/
def canTerminateWithoutInput (nodes : List Node) (states : List Nat) : Bool :=
  (termAux nodes (termBound nodes states) states []).getD false

/-- One character step of `check_string` (lines 263-267): the set of all
successors of the current states that accept `c` (a Python set, embedded
as a deduplicated list). -/
def stepChar (nodes : List Node) (current : List Nat) (c : Char) : List Nat :=
  current.foldl
    (fun acc s =>
      (nodeNext nodes s).foldl
        (fun acc ns => if checkSelf nodes ns c ∧ ¬ acc.contains ns then acc ++ [ns] else acc)
        acc)
    []

/-- The per-character loop of `check_string` (lines 262-274) followed by
the final termination-reachability test. -/
def checkLoop (nodes : List Node) (current : List Nat) : List Char → Bool
  | [] => canTerminateWithoutInput nodes current
  | c :: rest =>
    let next := stepChar nodes current c
    if next = [] then false
    else checkLoop nodes (addEpsilonTransitions nodes next) rest

/-- `RegexFSM.check_string` (lines 244-274).  The input is `Option`-typed:
`none` models Python's `None` (raising `ValueError`), `some s` a string. -/
def check_string (fsm : FSM) (input_str : Option (List Char)) : Except RegexError Bool :=
  match input_str with
  | none => .error .inputRequired
  | some s =>
    let current := addEpsilonTransitions fsm.nodes [0]
    if s = [] then .ok (canTerminateWithoutInput fsm.nodes current)
    else .ok (checkLoop fsm.nodes current s)

/-- Compile-then-match composition: the observable behaviour of
`RegexFSM(pattern).check_string(input)`. -/
def matchResult (pattern : List Char) (input : Option (List Char)) :
    Except RegexError Bool :=
  match compile pattern with
  | .error e => .error e
  | .ok fsm => check_string fsm input

/-! ### Specification-side definitions

These restate properties in the vocabulary of the specification document,
to be compared with the behaviour of the embedded code. -/

/-- Spec-side matching for literal/`.` patterns, read off the claim: the
input has the same length as the pattern and, at every position, the
pattern character is `.` or equals the input character. -/
def litSpec (p s : List Char) : Bool :=
  decide (s.length = p.length) &&
    (List.zip p s).all (fun q => decide (q.1 = '.' ∨ q.1 = q.2))

/-- Recursive form of `litSpec`, convenient for the run analysis. -/
def literalMatches : List Char → List Char → Bool
  | [], [] => true
  | pc :: p, sc :: s => decide (pc = '.' ∨ pc = sc) && literalMatches p s
  | _, _ => false

/-- Spec-side class-body scan, read off the claim: position `i` moves left
to right; when the character at `i` is followed by `-` and a third
character is present, the pair of endpoints is a range and `i` advances by
3; otherwise the character at `i` is a single and `i` advances by 1. -/
def specClassScan (body : List Char) (i : Nat) : List (Char × Char) × List Char :=
  if _h : i < body.length then
    match body[i + 1]?, body[i + 2]? with
    | some d, some b =>
      if d = '-' then
        let r := specClassScan body (i + 3)
        ((body.getD i ' ', b) :: r.1, r.2)
      else
        let r := specClassScan body (i + 1)
        (r.1, body.getD i ' ' :: r.2)
    | _, _ =>
      let r := specClassScan body (i + 1)
      (r.1, body.getD i ' ' :: r.2)
  else ([], [])
termination_by body.length - i
decreasing_by all_goals omega

/-- Spec-side class acceptance: a leading `^` sets `negated` and is
consumed; the state accepts `c` iff (`c` lies in some range or is in the
singles set) XOR `negated`. -/
def specClassAccepts (class_spec : List Char) (c : Char) : Bool :=
  let negated := class_spec.head? = some '^'
  let body := if negated then class_spec.tail else class_spec
  let r := specClassScan body 0
  Bool.xor
    (r.1.any (fun p => decide (p.1.toNat ≤ c.toNat ∧ c.toNat ≤ p.2.toNat)) ||
      r.2.contains c)
    negated

/-- The claimed range invariant, as a decidable check on a compilation
result: every `(low, high)` entry of every compiled `CharClass` state has
`low ≤ high` in code-point order (vacuously true on a compile error). -/
def compiledRangesSorted (p : List Char) : Bool :=
  match compile p with
  | .error _ => true
  | .ok f =>
    f.nodes.all (fun n =>
      match n.kind with
      | .charClass d => d.char_ranges.all (fun r => decide (r.1.toNat ≤ r.2.toNat))
      | _ => true)

/-- Decidable form of "every `[` in the pattern is followed by some `]`
later in the pattern" (the complement of the unclosed-class error
condition). -/
def noUnclosedBracket : List Char → Bool
  | [] => true
  | c :: rest => (!decide (c = '[') || rest.contains ']') && noUnclosedBracket rest

/-- The arena produced by the literal branch of the scanning loop for a
run of literal/`.` characters: each step appends a fresh `DotState` or
`AsciiState` and links it from the node built just before it.  This is a
proof-side closed form of `compileLoop` on quantifier- and bracket-free
patterns. -/
def appendLit (nodes : List Node) (parent : Nat) : List Char → List Node
  | [] => nodes
  | c :: cs =>
    let idx := nodes.length
    let kind := if c = '.' then NodeKind.dot else NodeKind.ascii c
    appendLit (setNext (nodes ++ [⟨kind, []⟩]) parent (fun l => l ++ [idx])) idx cs

/-- The node variant built for one literal/`.` pattern character: a
`DotState` for `.`, otherwise an `AsciiState`. -/
def litKind (c : Char) : NodeKind :=
  if c = '.' then NodeKind.dot else NodeKind.ascii c

/-- Closed form of the machine compiled from a quantifier- and
bracket-free pattern: the start node, the chain of literal/dot nodes, and
the termination node wired from the last chain node. -/
def litFsm (p : List Char) : List Node :=
  setNext (appendLit [⟨.start, []⟩] 0 p ++ [⟨.termination, []⟩]) p.length
    (fun l => l ++ [p.length + 1])

end Regex

deriving instance DecidableEq for Except

namespace Regex

/-! ### Helper lemmas -/

/-- Every range pair recorded by the class-body scan appears verbatim in
the body as `low`, `-`, `high` in consecutive positions. -/
theorem ranges_from_scan :
    ∀ (n : Nat) (body : List Char), body.length ≤ n → ∀ a b,
      (a, b) ∈ (parseClassItems body).1 →
      ∃ u v, body = u ++ a :: '-' :: b :: v := by
  intro n
  induction n with
  | zero =>
    intro body hb a b hm
    match body with
    | [] => simp [parseClassItems] at hm
    | x :: rest => simp at hb
  | succ n ih =>
    intro body hb a b hm
    match body with
    | [] => simp [parseClassItems] at hm
    | [x] => simp [parseClassItems] at hm
    | [x, y] => simp [parseClassItems] at hm
    | x :: y :: z :: rest =>
      by_cases hy : y = '-'
      · subst hy
        simp [parseClassItems] at hm
        rcases hm with ⟨ha, hb2⟩ | hm
        · exact ⟨[], rest, by simp [ha, hb2]⟩
        · obtain ⟨u, v, huv⟩ := ih rest (by simp at hb; omega) a b hm
          exact ⟨x :: '-' :: z :: u, v, by simp [huv]⟩
      · simp [parseClassItems, hy] at hm
        obtain ⟨u, v, huv⟩ := ih (y :: z :: rest) (by simp at hb ⊢; omega) a b hm
        exact ⟨x :: u, v, by simp [huv]⟩

/-- The spec-side indexed scan of a class body coincides with the
structural scan performed by `CharacterClassState.__init__`: at every
start index `i`, scanning `body` from `i` yields the ranges and singles of
`parseClassItems` on the remaining suffix. -/
theorem scan_eq_parse :
    ∀ (n : Nat) (body : List Char) (i : Nat), body.length - i ≤ n →
      specClassScan body i = parseClassItems (body.drop i) := by
  intro n
  induction n with
  | zero =>
    intro body i h
    have hi : body.length ≤ i := by omega
    rw [specClassScan, dif_neg (by omega), List.drop_eq_nil_of_le hi, parseClassItems]
  | succ n ih =>
    intro body i h
    by_cases hi : i < body.length
    · rw [specClassScan, dif_pos hi]
      rw [List.drop_eq_getElem_cons hi]
      by_cases hi1 : i + 1 < body.length
      · rw [List.getElem?_eq_getElem hi1]
        rw [List.drop_eq_getElem_cons hi1]
        by_cases hi2 : i + 2 < body.length
        · rw [List.getElem?_eq_getElem hi2]
          rw [List.drop_eq_getElem_cons hi2]
          by_cases hdash : body[i + 1] = '-'
          · simp only [hdash, parseClassItems, if_pos rfl]
            rw [ih body (i + 3) (by omega)]
            simp [List.getD_eq_getElem?_getD, List.getElem?_eq_getElem hi]
          · simp only [parseClassItems, if_neg hdash]
            rw [ih body (i + 1) (by omega), List.drop_eq_getElem_cons hi1,
              List.drop_eq_getElem_cons hi2]
            simp [List.getD_eq_getElem?_getD, List.getElem?_eq_getElem hi]
        · rw [List.getElem?_eq_none (by omega)]
          rw [List.drop_eq_nil_of_le (by omega)]
          rw [ih body (i + 1) (by omega), List.drop_eq_getElem_cons hi1,
            List.drop_eq_nil_of_le (by omega)]
          simp [parseClassItems, List.getD_eq_getElem?_getD,
            List.getElem?_eq_getElem hi]
      · rw [List.getElem?_eq_none (by omega)]
        rw [List.drop_eq_nil_of_le (by omega)]
        rw [ih body (i + 1) (by omega), List.drop_eq_nil_of_le (by omega)]
        simp [parseClassItems, List.getD_eq_getElem?_getD,
          List.getElem?_eq_getElem hi]
    · rw [specClassScan, dif_neg hi, List.drop_eq_nil_of_le (by omega), parseClassItems]

/-- When no `]` remains, the in-class scan falls off the end of the
pattern and raises the unclosed-class error. -/
theorem no_close_error :
    ∀ (cs : List Char) (nodes : List Node) (states : List Nat) (acc : List Char),
      ']' ∉ cs → compileLoop nodes states (some acc) cs = .error .unclosedClass := by
  intro cs
  induction cs with
  | nil => intro nodes states acc _; rfl
  | cons c rest ih =>
    intro nodes states acc h
    have hc : ¬ c = ']' := fun hc => h (hc ▸ List.mem_cons_self c rest)
    simp only [compileLoop, if_neg hc]
    exact ih _ _ _ (fun hm => h (List.mem_cons_of_mem c hm))

/-- Any pattern suffix containing a `[` with no `]` after it drives the
scanning loop into the unclosed-class error, from any intermediate
compilation state. -/
theorem unclosed_error :
    ∀ (cs : List Char) (nodes : List Node) (states : List Nat)
      (mode : Option (List Char)) (u v : List Char),
      cs = u ++ '[' :: v → ']' ∉ v →
      ∃ e, compileLoop nodes states mode cs = .error e := by
  intro cs
  induction cs with
  | nil =>
    intro _ _ _ u v hcs _
    exact absurd hcs (by cases u <;> simp)
  | cons c rest ih =>
    intro nodes states mode u v hcs hv
    cases mode with
    | some acc =>
      by_cases hc : c = ']'
      · cases u with
        | nil =>
          simp only [List.nil_append, List.cons.injEq] at hcs
          exact absurd (hcs.1.symm.trans hc) (by decide)
        | cons x u' =>
          simp only [List.cons_append, List.cons.injEq] at hcs
          obtain ⟨e, he⟩ := ih (addClassNode nodes states acc).1
            (addClassNode nodes states acc).2 none u' v hcs.2 hv
          exact ⟨e, by simp only [compileLoop, if_pos hc]; exact he⟩
      · cases u with
        | nil =>
          simp only [List.nil_append, List.cons.injEq] at hcs
          refine ⟨.unclosedClass, ?_⟩
          simp only [compileLoop, if_neg hc]
          exact no_close_error rest _ _ _ (hcs.2 ▸ hv)
        | cons x u' =>
          simp only [List.cons_append, List.cons.injEq] at hcs
          obtain ⟨e, he⟩ := ih nodes states (some (acc ++ [c])) u' v hcs.2 hv
          exact ⟨e, by simp only [compileLoop, if_neg hc]; exact he⟩
    | none =>
      cases u with
      | nil =>
        simp only [List.nil_append, List.cons.injEq] at hcs
        obtain ⟨hc, hrest⟩ := hcs
        subst hc
        refine ⟨.unclosedClass, ?_⟩
        simp only [compileLoop]
        rw [if_neg (by simp), if_neg (by simp)]
        simp only [if_true]
        exact no_close_error rest _ _ [] (hrest ▸ hv)
      | cons x u' =>
        simp only [List.cons_append, List.cons.injEq] at hcs
        simp only [compileLoop]
        split_ifs with h1 h2 h3 h4
        · exact ih _ _ none u' v hcs.2 hv
        · exact ih _ _ none u' v hcs.2 hv
        · exact ih _ _ (some []) u' v hcs.2 hv
        · exact ih _ _ none u' v hcs.2 hv
        · exact ih _ _ none u' v hcs.2 hv

/-- `noUnclosedBracket` is exactly "every split at a `[` has a `]` in the
remainder". -/
theorem noUnclosed_iff (p : List Char) :
    noUnclosedBracket p = true ↔ ∀ u v, p = u ++ '[' :: v → ']' ∈ v := by
  induction p with
  | nil =>
    simp only [noUnclosedBracket, true_iff]
    intro u v huv
    exact absurd huv (by cases u <;> simp)
  | cons c rest ih =>
    simp only [noUnclosedBracket, Bool.and_eq_true, Bool.or_eq_true, Bool.not_eq_true',
      decide_eq_false_iff_not, ih]
    constructor
    · rintro ⟨hc, hrest⟩ u v huv
      cases u with
      | nil =>
        simp only [List.nil_append, List.cons.injEq] at huv
        rcases hc with hc | hc
        · exact absurd huv.1 hc
        · exact huv.2 ▸ (List.elem_iff.mp hc)
      | cons x u' =>
        simp only [List.cons_append, List.cons.injEq] at huv
        exact hrest u' v huv.2
    · intro h
      constructor
      · by_cases hc : c = '['
        · exact Or.inr (List.elem_iff.mpr (h [] rest (by simp [hc])))
        · exact Or.inl hc
      · intro u v huv
        exact h (c :: u) v (by rw [huv, List.cons_append])

/-- From any intermediate state, the scanning loop succeeds on a suffix
whose brackets are all closed (and, when already inside a class, whose
first `]` exists). -/
theorem loop_ok :
    ∀ (cs : List Char) (nodes : List Node) (states : List Nat)
      (mode : Option (List Char)),
      noUnclosedBracket cs = true →
      (mode.isSome → ']' ∈ cs) →
      ∃ out, compileLoop nodes states mode cs = .ok out := by
  intro cs
  induction cs with
  | nil =>
    intro nodes states mode _ hm
    cases mode with
    | none => exact ⟨(nodes, states), rfl⟩
    | some acc => exact absurd (hm rfl) (by simp)
  | cons c rest ih =>
    intro nodes states mode hcl hm
    have hcl' : noUnclosedBracket rest = true := by
      simp only [noUnclosedBracket, Bool.and_eq_true] at hcl
      exact hcl.2
    cases mode with
    | some acc =>
      by_cases hc : c = ']'
      · obtain ⟨out, hout⟩ := ih (addClassNode nodes states acc).1
          (addClassNode nodes states acc).2 none hcl' (by simp)
        exact ⟨out, by simp only [compileLoop, if_pos hc]; exact hout⟩
      · have hmem : ']' ∈ rest := by
          have := hm rfl
          simp only [List.mem_cons] at this
          exact this.resolve_left (fun h => hc h.symm)
        obtain ⟨out, hout⟩ := ih nodes states (some (acc ++ [c])) hcl'
          (fun _ => hmem)
        exact ⟨out, by simp only [compileLoop, if_neg hc]; exact hout⟩
    | none =>
      simp only [compileLoop]
      split_ifs with h1 h2 h3
      · exact ih _ _ none hcl' (by simp)
      · exact ih _ _ none hcl' (by simp)
      · refine ih _ _ (some []) hcl' (fun _ => ?_)
        simp only [noUnclosedBracket, Bool.and_eq_true, Bool.or_eq_true,
          Bool.not_eq_true', decide_eq_false_iff_not] at hcl
        exact List.elem_iff.mp (hcl.1.resolve_left (fun h => h h3))
      · exact ih _ _ none hcl' (by simp)
      · exact ih _ _ none hcl' (by simp)

/-- Marking an in-range, unvisited node visited removes exactly its
out-degree from the unvisited-edge potential. -/
theorem unvisitedEdges_cons (nodes : List Node) (visited : List Nat) (s : Nat)
    (hs : s < nodes.length) (hns : s ∉ visited) :
    unvisitedEdges nodes (s :: visited) + outDeg nodes s = unvisitedEdges nodes visited := by
  unfold unvisitedEdges
  have hmem : s ∈ Finset.range nodes.length := Finset.mem_range.mpr hs
  rw [Finset.sum_eq_sum_diff_singleton_add hmem
      (fun i => if i ∈ s :: visited then 0 else outDeg nodes i),
    Finset.sum_eq_sum_diff_singleton_add hmem
      (fun i => if i ∈ visited then 0 else outDeg nodes i)]
  have hcongr : ∀ i ∈ Finset.range nodes.length \ {s},
      (if i ∈ s :: visited then 0 else outDeg nodes i) =
        (if i ∈ visited then 0 else outDeg nodes i) := by
    intro i hi
    have hne : i ≠ s := by
      rw [Finset.mem_sdiff, Finset.mem_singleton] at hi
      exact hi.2
    simp [List.mem_cons, hne]
  rw [Finset.sum_congr rfl hcongr]
  rw [if_pos (List.mem_cons_self s visited), if_neg hns]
  omega

/-- Marking an out-of-range index visited leaves the potential unchanged. -/
theorem unvisitedEdges_cons_oob (nodes : List Node) (visited : List Nat) (s : Nat)
    (hs : nodes.length ≤ s) :
    unvisitedEdges nodes (s :: visited) = unvisitedEdges nodes visited := by
  unfold unvisitedEdges
  refine Finset.sum_congr rfl (fun i hi => ?_)
  have : i ≠ s := by
    rw [Finset.mem_range] at hi
    omega
  simp [List.mem_cons, this]

/-- An out-of-range index has no successors. -/
theorem nodeNext_oob (nodes : List Node) (s : Nat) (hs : nodes.length ≤ s) :
    nodeNext nodes s = [] := by
  unfold nodeNext
  rw [List.getElem?_eq_none hs]

/-- The first inner loop of the closure never appends to the worklist when
the popped state is already in the visited set (it always is: the state
was just added). -/
theorem epsFirstBlock_snd (visited : List Nat) (s : Nat) :
    ∀ (succ : List Nat) (rw : List Nat × List Nat), s ∈ visited →
      (epsFirstBlock rw visited s succ).2 = rw.2 := by
  intro succ
  induction succ with
  | nil => intro rw _; rfl
  | cons ns rest ih =>
    intro rw hs
    by_cases hcond : ns = s ∧ ¬ rw.1.contains ns
    · simp only [epsFirstBlock, List.foldl_cons, if_pos hcond]
      rw [if_neg (by simp only [not_not]; exact List.elem_iff.mpr (hcond.1 ▸ hs))]
      exact ih _ hs
    · simp only [epsFirstBlock, List.foldl_cons, if_neg hcond]
      exact ih _ hs

/-- The second inner loop of the closure appends at most one worklist
entry per successor. -/
theorem epsSecondBlock_snd_le (nodes : List Node) (visited : List Nat) :
    ∀ (succ : List Nat) (rw : List Nat × List Nat),
      (epsSecondBlock nodes rw visited succ).2.length ≤ rw.2.length + succ.length := by
  intro succ
  induction succ with
  | nil => intro rw; simp [epsSecondBlock]
  | cons ns rest ih =>
    intro rw
    by_cases hcond : isStarIdx nodes ns = true ∧ ¬ visited.contains ns = true
    · simp only [epsSecondBlock, List.foldl_cons, if_pos hcond]
      have := ih ((if rw.1.contains ns then rw.1 else rw.1 ++ [ns]), rw.2 ++ [ns])
      simp only [epsSecondBlock] at this ⊢
      simp at this ⊢
      omega
    · simp only [epsSecondBlock, List.foldl_cons, if_neg hcond]
      have := ih rw
      simp only [epsSecondBlock] at this ⊢
      simp at this ⊢
      omega

/-- The closure worklist loop completes (returns a result rather than
running out) whenever the fuel exceeds the potential: worklist length plus
the total out-degree of the not-yet-visited arena nodes. -/
theorem epsAux_isSome :
    ∀ (fuel : Nat) (nodes : List Node) (res wl visited : List Nat),
      wl.length + unvisitedEdges nodes visited < fuel →
      (epsAux nodes fuel res wl visited).isSome = true := by
  intro fuel
  induction fuel with
  | zero => intro nodes res wl visited h; omega
  | succ fuel ih =>
    intro nodes res wl visited h
    match wl with
    | [] => rfl
    | s :: wl' =>
      by_cases hv : visited.contains s = true
      · simp only [epsAux, if_pos hv]
        apply ih
        simp only [List.length_cons] at h
        omega
      · simp only [epsAux, if_neg hv]
        have hrw1 : (if isStarIdx nodes s then
            epsFirstBlock (res, wl') (s :: visited) s (nodeNext nodes s)
            else (res, wl')).2 = wl' := by
          by_cases hst : isStarIdx nodes s = true
          · rw [if_pos hst]
            exact epsFirstBlock_snd (s :: visited) s (nodeNext nodes s) _
              (List.mem_cons_self s visited)
          · rw [if_neg hst]
        apply ih
        have hlen := epsSecondBlock_snd_le nodes (s :: visited) (nodeNext nodes s)
          (if isStarIdx nodes s then
            epsFirstBlock (res, wl') (s :: visited) s (nodeNext nodes s)
            else (res, wl'))
        rw [hrw1] at hlen
        simp only [List.length_cons] at h
        by_cases hrange : s < nodes.length
        · have hdec := unvisitedEdges_cons nodes visited s hrange
            (fun hm => hv (List.elem_iff.mpr hm))
          have hout : (nodeNext nodes s).length = outDeg nodes s := rfl
          omega
        · have heq := unvisitedEdges_cons_oob nodes visited s (by omega)
          have hnil : nodeNext nodes s = [] := nodeNext_oob nodes s (by omega)
          rw [hnil] at hlen ⊢
          rw [heq]
          simp at hlen
          omega

/-- Once the closure loop completes with some fuel, one more unit of fuel
does not change the result. -/
theorem epsAux_mono :
    ∀ (fuel : Nat) (nodes : List Node) (res wl visited : List Nat) (r : List Nat),
      epsAux nodes fuel res wl visited = some r →
      epsAux nodes (fuel + 1) res wl visited = some r := by
  intro fuel
  induction fuel with
  | zero => intro nodes res wl visited r h; exact absurd h (by simp [epsAux])
  | succ fuel ih =>
    intro nodes res wl visited r h
    match wl with
    | [] => exact h
    | s :: wl' =>
      by_cases hv : visited.contains s = true
      · simp only [epsAux, if_pos hv] at h ⊢
        exact ih _ _ _ _ _ h
      · simp only [epsAux, if_neg hv] at h ⊢
        exact ih _ _ _ _ _ h

/-- Fuel-stability of the closure loop: any surplus fuel beyond a
sufficient amount leaves the result unchanged. -/
theorem epsAux_mono_add (nodes : List Node) (res wl visited : List Nat) (r : List Nat)
    (fuel k : Nat) (h : epsAux nodes fuel res wl visited = some r) :
    epsAux nodes (fuel + k) res wl visited = some r := by
  induction k with
  | zero => exact h
  | succ k ihk => exact epsAux_mono _ _ _ _ _ _ ihk

/-- The termination-reachability queue loop completes whenever the fuel
exceeds the potential (queue length plus unvisited out-degrees). -/
theorem termAux_isSome :
    ∀ (fuel : Nat) (nodes : List Node) (q visited : List Nat),
      q.length + unvisitedEdges nodes visited < fuel →
      (termAux nodes fuel q visited).isSome = true := by
  intro fuel
  induction fuel with
  | zero => intro nodes q visited h; omega
  | succ fuel ih =>
    intro nodes q visited h
    match q with
    | [] => rfl
    | s :: q' =>
      by_cases hv : visited.contains s = true
      · simp only [termAux, if_pos hv]
        apply ih
        simp only [List.length_cons] at h
        omega
      · by_cases hterm : (nodeNext nodes s).any (fun n => isTermIdx nodes n) = true
        · simp only [termAux, if_neg hv, if_pos hterm]
          rfl
        · simp only [termAux, if_neg hv, if_neg hterm]
          apply ih
          have hfil : ((nodeNext nodes s).filter
              (fun n => decide (isStarIdx nodes n = true ∧
                ¬ (s :: visited).contains n = true))).length ≤
              (nodeNext nodes s).length := List.length_filter_le _ _
          simp only [List.length_cons] at h
          simp only [List.length_append]
          by_cases hrange : s < nodes.length
          · have hdec := unvisitedEdges_cons nodes visited s hrange
              (fun hm => hv (List.elem_iff.mpr hm))
            have hout : (nodeNext nodes s).length = outDeg nodes s := rfl
            omega
          · have heq := unvisitedEdges_cons_oob nodes visited s (by omega)
            have hnil : nodeNext nodes s = [] := nodeNext_oob nodes s (by omega)
            rw [hnil, heq]
            simp only [List.filter_nil, List.length_nil]
            omega

/-- Once the termination-reachability loop completes with some fuel, one
more unit of fuel does not change the result. -/
theorem termAux_mono :
    ∀ (fuel : Nat) (nodes : List Node) (q visited : List Nat) (b : Bool),
      termAux nodes fuel q visited = some b →
      termAux nodes (fuel + 1) q visited = some b := by
  intro fuel
  induction fuel with
  | zero => intro nodes q visited b h; exact absurd h (by simp [termAux])
  | succ fuel ih =>
    intro nodes q visited b h
    match q with
    | [] => exact h
    | s :: q' =>
      by_cases hv : visited.contains s = true
      · simp only [termAux, if_pos hv] at h ⊢
        exact ih _ _ _ _ h
      · by_cases hterm : (nodeNext nodes s).any (fun n => isTermIdx nodes n) = true
        · simp only [termAux, if_neg hv, if_pos hterm] at h ⊢
          exact h
        · simp only [termAux, if_neg hv, if_neg hterm] at h ⊢
          exact ih _ _ _ _ h

/-- Fuel-stability of the termination-reachability loop. -/
theorem termAux_mono_add (nodes : List Node) (q visited : List Nat) (b : Bool)
    (fuel k : Nat) (h : termAux nodes fuel q visited = some b) :
    termAux nodes (fuel + k) q visited = some b := by
  induction k with
  | zero => exact h
  | succ k ihk => exact termAux_mono _ _ _ _ _ ihk

theorem setNext_length (nodes : List Node) (i : Nat) (f : List Nat → List Nat) :
    (setNext nodes i f).length = nodes.length := by
  induction nodes generalizing i with
  | nil => rfl
  | cons n ns ih =>
    cases i with
    | zero => rfl
    | succ j => simp [setNext, ih]

theorem setNext_get_ne (nodes : List Node) (i j : Nat) (f : List Nat → List Nat)
    (h : i ≠ j) : (setNext nodes i f)[j]? = nodes[j]? := by
  induction nodes generalizing i j with
  | nil => rfl
  | cons n ns ih =>
    cases i with
    | zero =>
      cases j with
      | zero => exact absurd rfl h
      | succ j' => rfl
    | succ i' =>
      cases j with
      | zero => simp [setNext]
      | succ j' => simpa [setNext] using ih i' j' (fun he => h (by rw [he]))

theorem setNext_get_self (nodes : List Node) (i : Nat) (f : List Nat → List Nat)
    (n : Node) (h : nodes[i]? = some n) :
    (setNext nodes i f)[i]? = some { n with next := f n.next } := by
  induction nodes generalizing i with
  | nil => simp at h
  | cons hd tl ih =>
    cases i with
    | zero => simp at h; simp [setNext, h]
    | succ j => simpa [setNext] using ih j (by simpa using h)

/-- On an arena with no `StarState`, the second inner loop of the closure
adds nothing. -/
theorem epsSecondBlock_no_star (nodes : List Node)
    (hns : ∀ i, isStarIdx nodes i = false) (visited : List Nat) :
    ∀ (succ : List Nat) (rw : List Nat × List Nat),
      epsSecondBlock nodes rw visited succ = rw := by
  intro succ
  induction succ with
  | nil => intro rw; rfl
  | cons ns rest ih =>
    intro rw
    have : ¬ (isStarIdx nodes ns = true ∧ ¬ visited.contains ns = true) := by
      simp [hns ns]
    simp only [epsSecondBlock, List.foldl_cons, if_neg this]
    exact ih rw

/-- On an arena with no `StarState`, the closure loop returns its input
set unchanged. -/
theorem epsAux_no_star (nodes : List Node)
    (hns : ∀ i, isStarIdx nodes i = false) :
    ∀ (fuel : Nat) (res wl visited : List Nat), wl.length < fuel →
      epsAux nodes fuel res wl visited = some res := by
  intro fuel
  induction fuel with
  | zero => intro res wl visited h; omega
  | succ fuel ih =>
    intro res wl visited h
    match wl with
    | [] => rfl
    | s :: wl' =>
      by_cases hv : visited.contains s = true
      · simp only [epsAux, if_pos hv]
        exact ih _ _ _ (by simp at h; omega)
      · simp only [epsAux, if_neg hv, hns s]
        rw [if_neg (by decide : ¬ (false = true))]
        rw [epsSecondBlock_no_star nodes hns _ _ _]
        exact ih _ _ _ (by simp at h ⊢; omega)

/-- On an arena with no `StarState`, `_add_epsilon_transitions` is the
identity. -/
theorem addEps_no_star (nodes : List Node)
    (hns : ∀ i, isStarIdx nodes i = false) (states : List Nat) :
    addEpsilonTransitions nodes states = states := by
  unfold addEpsilonTransitions
  rw [epsAux_no_star nodes hns _ _ _ _ (by unfold epsBound; omega)]
  rfl

theorem any_congr_mem :
    ∀ (l : List Nat) (f g : Nat → Bool), (∀ x ∈ l, f x = g x) →
      l.any f = l.any g := by
  intro l
  induction l with
  | nil => intro f g _; rfl
  | cons x xs ih =>
    intro f g h
    simp only [List.any_cons, h x (List.mem_cons_self x xs),
      ih f g (fun y hy => h y (List.mem_cons_of_mem x hy))]

/-- On an arena with no `StarState`, the termination-reachability search
reports exactly whether some unvisited queue member has a
`TerminationState` successor. -/
theorem termAux_no_star (nodes : List Node)
    (hns : ∀ i, isStarIdx nodes i = false) :
    ∀ (fuel : Nat) (q visited : List Nat), q.length < fuel →
      termAux nodes fuel q visited =
        some (q.any (fun s => !visited.contains s &&
          (nodeNext nodes s).any (fun n => isTermIdx nodes n))) := by
  intro fuel
  induction fuel with
  | zero => intro q visited h; omega
  | succ fuel ih =>
    intro q visited h
    match q with
    | [] => rfl
    | s :: q' =>
      by_cases hv : visited.contains s = true
      · simp only [termAux, if_pos hv]
        rw [ih q' visited (by simp at h; omega)]
        refine congrArg some ?_
        simp only [List.any_cons, hv, Bool.not_true, Bool.false_and, Bool.false_or]
      · have hv' : visited.contains s = false := Bool.eq_false_iff.mpr hv
        by_cases hterm : (nodeNext nodes s).any (fun n => isTermIdx nodes n) = true
        · simp only [termAux, if_neg hv, if_pos hterm]
          refine congrArg some ?_
          simp only [List.any_cons, hv', hterm, Bool.not_false, Bool.true_and,
            Bool.true_or]
        · have hterm' : (nodeNext nodes s).any (fun n => isTermIdx nodes n) = false :=
            Bool.eq_false_iff.mpr hterm
          simp only [termAux, if_neg hv, if_neg hterm]
          have hfil : (nodeNext nodes s).filter
              (fun n => decide (isStarIdx nodes n = true ∧
                ¬ (s :: visited).contains n = true)) = [] := by
            refine List.filter_eq_nil_iff.mpr (fun n _ => ?_)
            simp [hns n]
          rw [hfil, List.append_nil, ih q' (s :: visited) (by simp at h; omega)]
          refine congrArg some ?_
          have hcongr : ∀ x ∈ q',
              (!(s :: visited).contains x &&
                (nodeNext nodes x).any (fun n => isTermIdx nodes n)) =
              (!visited.contains x &&
                (nodeNext nodes x).any (fun n => isTermIdx nodes n)) := by
            intro x hx
            by_cases hxs : x = s
            · subst hxs
              simp only [hterm', Bool.and_false]
            · simp only [List.contains_cons]
              have hbe : (x == s) = false := by simp [hxs]
              rw [hbe]
              simp
          rw [any_congr_mem q' _ _ hcongr]
          simp only [List.any_cons, hv', hterm', Bool.not_false, Bool.true_and,
            Bool.false_or]

/-- On an arena with no `StarState`, `_can_terminate_without_input` is the
direct-successor termination test. -/
theorem canTerm_no_star (nodes : List Node)
    (hns : ∀ i, isStarIdx nodes i = false) (states : List Nat) :
    canTerminateWithoutInput nodes states =
      states.any (fun s => (nodeNext nodes s).any (fun n => isTermIdx nodes n)) := by
  unfold canTerminateWithoutInput
  rw [termAux_no_star nodes hns _ _ _ (by unfold termBound; omega)]
  simp only [Option.getD_some]
  exact any_congr_mem _ _ _ (fun x _ => by simp)

theorem appendLit_length :
    ∀ (cs : List Char) (nodes : List Node) (parent : Nat),
      (appendLit nodes parent cs).length = nodes.length + cs.length := by
  intro cs
  induction cs with
  | nil => intro nodes parent; simp [appendLit]
  | cons c rest ih =>
    intro nodes parent
    simp only [appendLit]
    rw [ih, setNext_length]
    simp only [List.length_append, List.length_singleton, List.length_cons,
      List.length_nil]
    omega

theorem appendLit_get_lt :
    ∀ (cs : List Char) (nodes : List Node) (parent j : Nat),
      j < nodes.length → j ≠ parent →
      (appendLit nodes parent cs)[j]? = nodes[j]? := by
  intro cs
  induction cs with
  | nil => intro nodes parent j _ _; rfl
  | cons c rest ih =>
    intro nodes parent j hj hne
    simp only [appendLit]
    rw [ih _ _ j (by rw [setNext_length, List.length_append,
      List.length_singleton]; omega) (by omega)]
    rw [setNext_get_ne _ _ _ _ (fun h => hne h.symm)]
    exact List.getElem?_append_left hj

theorem appendLit_get_parent :
    ∀ (cs : List Char) (nodes : List Node) (parent : Nat) (n : Node),
      cs ≠ [] → parent < nodes.length → nodes[parent]? = some n →
      (appendLit nodes parent cs)[parent]? =
        some { n with next := n.next ++ [nodes.length] } := by
  intro cs nodes parent n hne hp hn
  match cs with
  | [] => exact absurd rfl hne
  | c :: rest =>
    simp only [appendLit]
    have hbase : (setNext (nodes ++ [⟨if c = '.' then NodeKind.dot
        else NodeKind.ascii c, []⟩]) parent
        (fun l => l ++ [nodes.length]))[parent]? =
        some { n with next := n.next ++ [nodes.length] } := by
      rw [setNext_get_self _ _ _ n (by rw [List.getElem?_append_left hp]; exact hn)]
    match rest with
    | [] => exact hbase
    | c2 :: rest2 =>
      rw [appendLit_get_lt _ _ _ parent
        (by rw [setNext_length]; simp; omega) (by omega)]
      exact hbase

theorem appendLit_get_chain :
    ∀ (cs : List Char) (nodes : List Node) (parent j : Nat) (c : Char),
      parent < nodes.length → cs[j]? = some c → j + 1 < cs.length →
      (appendLit nodes parent cs)[nodes.length + j]? =
        some ⟨litKind c, [nodes.length + j + 1]⟩ := by
  intro cs
  induction cs with
  | nil => intro nodes parent j c _ hc _; simp at hc
  | cons c0 rest ih =>
    intro nodes parent j c hpar hc hj
    simp only [appendLit]
    cases j with
    | zero =>
      simp only [List.getElem?_cons_zero, Option.some.injEq] at hc
      subst hc
      have hrest : rest ≠ [] := by
        simp only [List.length_cons] at hj
        intro h
        rw [h] at hj
        simp at hj
      have hnode : (setNext (nodes ++ [⟨if c0 = '.' then NodeKind.dot
          else NodeKind.ascii c0, []⟩]) parent
          (fun l => l ++ [nodes.length]))[nodes.length]? =
          some ⟨litKind c0, []⟩ := by
        rw [setNext_get_ne _ _ _ _ (by omega)]
        rw [List.getElem?_concat_length]
        rfl
      have hmain := appendLit_get_parent rest _ nodes.length ⟨litKind c0, []⟩ hrest
        (by rw [setNext_length]; simp) hnode
      simp only [Nat.add_zero]
      rw [hmain]
      rw [setNext_length, List.length_append, List.length_singleton]
      simp

    | succ j' =>
      simp only [List.getElem?_cons_succ] at hc
      simp only [List.length_cons] at hj
      have hstep := ih (setNext (nodes ++ [⟨if c0 = '.' then NodeKind.dot
          else NodeKind.ascii c0, []⟩]) parent
          (fun l => l ++ [nodes.length])) nodes.length j' c
          (by rw [setNext_length]; simp) hc (by omega)
      rw [setNext_length, List.length_append, List.length_singleton] at hstep
      have e1 : nodes.length + 1 + j' = nodes.length + (j' + 1) := by omega
      rw [e1] at hstep
      exact hstep

theorem appendLit_get_last :
    ∀ (cs : List Char) (nodes : List Node) (parent : Nat) (c : Char),
      parent < nodes.length → cs.getLast? = some c →
      (appendLit nodes parent cs)[nodes.length + cs.length - 1]? =
        some ⟨litKind c, []⟩ := by
  intro cs
  induction cs with
  | nil => intro nodes parent c _ hc; simp at hc
  | cons c0 rest ih =>
    intro nodes parent c hpar hc
    simp only [appendLit]
    match rest with
    | [] =>
      simp only [List.getLast?_singleton, Option.some.injEq] at hc
      subst hc
      simp only [appendLit, List.length_cons, List.length_nil]
      have hidx : nodes.length + (0 + 1) - 1 = nodes.length := by omega
      rw [hidx]
      rw [setNext_get_ne _ _ _ _ (by omega)]
      rw [List.getElem?_concat_length]
      rfl
    | c2 :: rest2 =>
      rw [List.getLast?_cons_cons] at hc
      have hstep := ih (setNext (nodes ++ [⟨if c0 = '.' then NodeKind.dot
          else NodeKind.ascii c0, []⟩]) parent
          (fun l => l ++ [nodes.length])) nodes.length c
          (by rw [setNext_length]; simp) hc
      rw [setNext_length, List.length_append, List.length_singleton] at hstep
      simp only [List.length_cons] at hstep ⊢
      have e1 : nodes.length + 1 + (rest2.length + 1) - 1 =
          nodes.length + (rest2.length + 1 + 1) - 1 := by omega
      rw [e1] at hstep
      exact hstep

/-- On a quantifier- and bracket-free pattern suffix, the scanning loop
takes the literal branch at every step, so it builds exactly the
`appendLit` chain; the final `states` head is the last chain node. -/
theorem compileLoop_lit :
    ∀ (cs : List Char) (nodes : List Node) (states : List Nat),
      (∀ c ∈ cs, c ≠ '*' ∧ c ≠ '+' ∧ c ≠ '[') →
      ∃ states', compileLoop nodes states none cs =
          .ok (appendLit nodes (states.headD 0) cs, states') ∧
        states'.headD 0 = (if cs.isEmpty then states.headD 0
          else nodes.length + cs.length - 1) := by
  intro cs
  induction cs with
  | nil =>
    intro nodes states _
    exact ⟨states, rfl, by simp⟩
  | cons c rest ih =>
    intro nodes states hlit
    have hc := hlit c (List.mem_cons_self c rest)
    have hlit' : ∀ d ∈ rest, d ≠ '*' ∧ d ≠ '+' ∧ d ≠ '[' :=
      fun d hd => hlit d (List.mem_cons_of_mem c hd)
    simp only [compileLoop]
    rw [if_neg (fun h => hc.1 h.1), if_neg (fun h => hc.2.1 h.1), if_neg hc.2.2]
    obtain ⟨states', h1, h2⟩ := ih
      (setNext (nodes ++ [⟨if c = '.' then NodeKind.dot else NodeKind.ascii c, []⟩])
        (states.headD 0) (fun l => l ++ [nodes.length]))
      (nodes.length :: states) hlit'
    refine ⟨states', ?_, ?_⟩
    · simp only [List.headD_cons] at h1
      exact h1
    · rw [h2]
      rw [setNext_length, List.length_append, List.length_singleton]
      cases rest with
      | nil => simp
      | cons d rest2 =>
        simp only [List.isEmpty_cons, List.length_cons, List.headD_cons]
        simp only [if_neg (by decide : ¬ (false = true))]
        omega

/-- Compiling a nonempty quantifier- and bracket-free pattern yields
exactly the literal chain machine `litFsm`. -/
theorem compile_lit (p : List Char)
    (hlit : ∀ c ∈ p, c ≠ '*' ∧ c ≠ '+' ∧ c ≠ '[') (hne : p ≠ []) :
    compile p = .ok ⟨litFsm p⟩ := by
  obtain ⟨states', h1, h2⟩ := compileLoop_lit p [⟨.start, []⟩] [] hlit
  have hhead : p.head? ≠ some '*' ∧ p.head? ≠ some '+' := by
    cases p with
    | nil => exact absurd rfl hne
    | cons c r =>
      have hc := hlit c (List.mem_cons_self c r)
      exact ⟨fun h => hc.1 (Option.some.inj h), fun h => hc.2.1 (Option.some.inj h)⟩
  unfold compile
  rw [if_neg hne, if_neg hhead.1, if_neg hhead.2]
  simp only [List.headD_nil] at h1
  rw [h1]
  dsimp only
  have hs : states'.headD 0 = p.length := by
    rw [h2]
    rw [if_neg (by simp [List.isEmpty_iff, hne])]
    simp only [List.length_singleton]
    omega
  have hlen : (appendLit [⟨.start, []⟩] 0 p).length = p.length + 1 := by
    rw [appendLit_length]
    simp only [List.length_singleton]
    omega
  rw [hs, hlen]
  rfl

theorem nodeNext_of_get (nodes : List Node) (i : Nat) (n : Node)
    (h : nodes[i]? = some n) : nodeNext nodes i = n.next := by
  unfold nodeNext; rw [h]

theorem isStarIdx_of_get (nodes : List Node) (i : Nat) (n : Node)
    (h : nodes[i]? = some n) :
    isStarIdx nodes i = (match n.kind with | .star _ => true | _ => false) := by
  unfold isStarIdx; rw [h]

theorem isTermIdx_of_get (nodes : List Node) (i : Nat) (n : Node)
    (h : nodes[i]? = some n) :
    isTermIdx nodes i = (match n.kind with | .termination => true | _ => false) := by
  unfold isTermIdx; rw [h]

theorem litFsm_length (p : List Char) : (litFsm p).length = p.length + 2 := by
  unfold litFsm
  rw [setNext_length, List.length_append, appendLit_length]
  simp only [List.length_singleton]
  omega

theorem litFsm_get_zero (p : List Char) (hne : p ≠ []) :
    (litFsm p)[0]? = some ⟨.start, [1]⟩ := by
  have hpos : 0 < p.length := List.length_pos.mpr hne
  unfold litFsm
  rw [setNext_get_ne _ _ _ _ (by omega)]
  rw [List.getElem?_append_left
    (by rw [appendLit_length]; simp only [List.length_singleton]; omega)]
  have h := appendLit_get_parent p [⟨.start, []⟩] 0 ⟨.start, []⟩ hne (by simp) rfl
  simp only [List.length_singleton] at h
  rw [h]
  rfl

theorem litFsm_get_succ (p : List Char) (j : Nat) (hj : j < p.length) (c : Char)
    (hc : p[j]? = some c) :
    (litFsm p)[j + 1]? = some ⟨litKind c, [j + 2]⟩ := by
  unfold litFsm
  by_cases hlast : j + 1 < p.length
  · rw [setNext_get_ne _ _ _ _ (by omega)]
    rw [List.getElem?_append_left
      (by rw [appendLit_length]; simp only [List.length_singleton]; omega)]
    have h := appendLit_get_chain p [⟨.start, []⟩] 0 j c (by simp) hc hlast
    simp only [List.length_singleton] at h
    have e1 : 1 + j = j + 1 := by omega
    rw [e1] at h
    have e2 : j + 1 + 1 = j + 2 := by omega
    rw [e2] at h
    exact h
  · have hjl : j + 1 = p.length := by omega
    have hgl : p.getLast? = some c := by
      rw [List.getLast?_eq_getElem?]
      have e : p.length - 1 = j := by omega
      rw [e]; exact hc
    have hA : (appendLit [⟨.start, []⟩] 0 p ++ [⟨.termination, []⟩])[p.length]? =
        some ⟨litKind c, []⟩ := by
      rw [List.getElem?_append_left
        (by rw [appendLit_length]; simp only [List.length_singleton]; omega)]
      have h := appendLit_get_last p [⟨.start, []⟩] 0 c (by simp) hgl
      simp only [List.length_singleton] at h
      have e1 : 1 + p.length - 1 = p.length := by omega
      rw [e1] at h
      exact h
    rw [hjl, setNext_get_self _ _ _ _ hA, ← hjl]
    rfl

theorem litFsm_get_term (p : List Char) :
    (litFsm p)[p.length + 1]? = some ⟨.termination, []⟩ := by
  unfold litFsm
  rw [setNext_get_ne _ _ _ _ (by omega)]
  have hlen : (appendLit [⟨.start, []⟩] 0 p).length = p.length + 1 := by
    rw [appendLit_length]; simp only [List.length_singleton]; omega
  rw [← hlen]
  exact List.getElem?_concat_length _ _

theorem litFsm_no_star (p : List Char) (hne : p ≠ []) :
    ∀ i, isStarIdx (litFsm p) i = false := by
  intro i
  cases i with
  | zero => rw [isStarIdx_of_get _ _ _ (litFsm_get_zero p hne)]
  | succ j =>
    by_cases hj : j < p.length
    · rw [isStarIdx_of_get _ _ _
        (litFsm_get_succ p j hj p[j] (List.getElem?_eq_getElem hj))]
      by_cases hd : p[j] = '.' <;> simp [litKind, hd]
    · by_cases hj2 : j = p.length
      · subst hj2
        rw [isStarIdx_of_get _ _ _ (litFsm_get_term p)]
      · have hnone : (litFsm p)[j + 1]? = none := by
          apply List.getElem?_eq_none
          rw [litFsm_length]
          omega
        unfold isStarIdx
        rw [hnone]

theorem litFsm_next (p : List Char) (hne : p ≠ []) (k : Nat) (hk : k ≤ p.length) :
    nodeNext (litFsm p) k = [k + 1] := by
  cases k with
  | zero => rw [nodeNext_of_get _ _ _ (litFsm_get_zero p hne)]
  | succ j =>
    have hj : j < p.length := by omega
    rw [nodeNext_of_get _ _ _
      (litFsm_get_succ p j hj p[j] (List.getElem?_eq_getElem hj))]

theorem litFsm_isTerm (p : List Char) (k : Nat) (hk : k ≤ p.length) :
    isTermIdx (litFsm p) (k + 1) = decide (k = p.length) := by
  by_cases hkl : k = p.length
  · subst hkl
    rw [isTermIdx_of_get _ _ _ (litFsm_get_term p)]
    simp
  · have hj : k < p.length := by omega
    rw [isTermIdx_of_get _ _ _
      (litFsm_get_succ p k hj p[k] (List.getElem?_eq_getElem hj))]
    by_cases hd : p[k] = '.' <;> simp [litKind, hd, hkl]

theorem litFsm_checkSelf_lit (p : List Char) (j : Nat) (hj : j < p.length) (c : Char) :
    checkSelf (litFsm p) (j + 1) c = (decide (p[j] = '.') || decide (p[j] = c)) := by
  show checkSelfFuel (litFsm p) (j + 1 + 1) (j + 1) c = _
  rw [checkSelfFuel]
  rw [litFsm_get_succ p j hj p[j] (List.getElem?_eq_getElem hj)]
  by_cases hd : p[j] = '.' <;> simp [litKind, hd]

theorem litFsm_checkSelf_term (p : List Char) (c : Char) :
    checkSelf (litFsm p) (p.length + 1) c = false := by
  show checkSelfFuel (litFsm p) (p.length + 1 + 1) (p.length + 1) c = _
  rw [checkSelfFuel]
  rw [litFsm_get_term p]

/-- Run analysis on the literal chain machine: after `k` matched
characters the single active state is node `k`, and the rest of the run
matches the remaining pattern suffix pointwise. -/
theorem checkLoop_lit (p : List Char) (hne : p ≠ []) :
    ∀ (s : List Char) (k : Nat), k ≤ p.length →
      checkLoop (litFsm p) [k] s = literalMatches (p.drop k) s := by
  intro s
  induction s with
  | nil =>
    intro k hk
    show canTerminateWithoutInput (litFsm p) [k] = _
    rw [canTerm_no_star _ (litFsm_no_star p hne)]
    simp only [List.any_cons, List.any_nil, Bool.or_false]
    rw [litFsm_next p hne k hk]
    simp only [List.any_cons, List.any_nil, Bool.or_false]
    rw [litFsm_isTerm p k hk]
    by_cases hkl : k = p.length
    · subst hkl
      rw [List.drop_length]
      simp [literalMatches]
    · rw [List.drop_eq_getElem_cons (show k < p.length by omega)]
      simp [literalMatches, hkl]
  | cons c s' ih =>
    intro k hk
    by_cases hkl : k = p.length
    · subst hkl
      have hcs : checkSelf (litFsm p) (p.length + 1) c = false :=
        litFsm_checkSelf_term p c
      have hnext : stepChar (litFsm p) [p.length] c = [] := by
        simp [stepChar, litFsm_next p hne p.length le_rfl, hcs]
      simp only [checkLoop]
      rw [hnext]
      rw [List.drop_length]
      simp [literalMatches]
    · have hklt : k < p.length := by omega
      have hcs := litFsm_checkSelf_lit p k hklt c
      by_cases hB : (decide (p[k] = '.') || decide (p[k] = c)) = true
      · have hnext : stepChar (litFsm p) [k] c = [k + 1] := by
          simp [stepChar, litFsm_next p hne k hk, hcs, hB]
        simp only [checkLoop]
        rw [hnext]
        rw [if_neg (by simp)]
        rw [addEps_no_star _ (litFsm_no_star p hne)]
        rw [ih (k + 1) (by omega)]
        rw [List.drop_eq_getElem_cons hklt]
        simp only [literalMatches]
        rw [show decide (p[k] = '.' ∨ p[k] = c) = true by rw [Bool.decide_or]; exact hB]
        simp
      · have hBf : (decide (p[k] = '.') || decide (p[k] = c)) = false :=
          Bool.eq_false_iff.mpr hB
        have hnext : stepChar (litFsm p) [k] c = [] := by
          simp [stepChar, litFsm_next p hne k hk, hcs, hBf]
        simp only [checkLoop]
        rw [hnext]
        rw [List.drop_eq_getElem_cons hklt]
        simp only [literalMatches]
        rw [show decide (p[k] = '.' ∨ p[k] = c) = false by rw [Bool.decide_or]; exact hBf]
        simp

/-- The recursive and the zip-based statements of literal/`.` matching
agree. -/
theorem literalMatches_eq_litSpec :
    ∀ (p s : List Char), literalMatches p s = litSpec p s := by
  intro p
  induction p with
  | nil => intro s; cases s <;> simp [literalMatches, litSpec]
  | cons pc p' ih =>
    intro s
    cases s with
    | nil => simp [literalMatches, litSpec]
    | cons sc s' =>
      simp only [literalMatches, litSpec, List.zip_cons_cons, List.all_cons,
        List.length_cons]
      rw [ih s']
      simp only [litSpec]
      have e : decide (s'.length + 1 = p'.length + 1) = decide (s'.length = p'.length) :=
        decide_eq_decide.mpr (by omega)
      rw [e]
      cases hA : decide (pc = '.' ∨ pc = sc) <;>
        cases hb : decide (s'.length = p'.length) <;>
        simp

/-! ### Claims -/

/-- **C1.** For every pattern built only from literal characters and `.`
(no `*`, `+`, `[`), `check_string` on the compiled machine returns `true`
iff the input has the same length as the pattern and, at every position,
the pattern character is `.` or equals the input character (`litSpec`). -/
theorem c1_literal_dot_matching (p : List Char) (f : FSM)
    (hlit : ∀ c ∈ p, c ≠ '*' ∧ c ≠ '+' ∧ c ≠ '[')
    (hok : compile p = .ok f) (s : List Char) :
    check_string f (some s) = .ok (litSpec p s) := by
  have hne : p ≠ [] := by
    intro h
    subst h
    simp [compile] at hok
  have hf : f = ⟨litFsm p⟩ :=
    (Except.ok.inj ((compile_lit p hlit hne).symm.trans hok)).symm
  subst hf
  simp only [check_string]
  rw [addEps_no_star _ (litFsm_no_star p hne)]
  by_cases hs : s = []
  · subst hs
    rw [if_pos rfl]
    have h0 : canTerminateWithoutInput (litFsm p) [0] =
        literalMatches (p.drop 0) [] := checkLoop_lit p hne [] 0 (by omega)
    rw [h0, List.drop_zero, literalMatches_eq_litSpec]
  · rw [if_neg hs]
    rw [checkLoop_lit p hne s 0 (by omega), List.drop_zero,
      literalMatches_eq_litSpec]

/-- Witness for `c1_literal_dot_matching` at the pattern `a.c` and input
`axc`. -/
theorem c1_witness :
    check_string ⟨litFsm ['a', '.', 'c']⟩ (some ['a', 'x', 'c']) =
      .ok (litSpec ['a', '.', 'c'] ['a', 'x', 'c']) :=
  c1_literal_dot_matching ['a', '.', 'c'] ⟨litFsm ['a', '.', 'c']⟩ (by decide) rfl
    ['a', 'x', 'c']

/-- **C2.** For the compiled pattern `a*`, `check_string` returns `true`
on `""`, `"a"`, `"aaaa"` and `false` on `"b"`; for the compiled pattern
`a+`, it returns `false` on `""` and `true` on `"a"`, `"aaa"`.
(`matchResult p s` is `check_string` on the machine compiled from `p`.) -/
theorem c2_star_plus_examples :
    matchResult ['a', '*'] (some []) = .ok true ∧
    matchResult ['a', '*'] (some ['a']) = .ok true ∧
    matchResult ['a', '*'] (some ['a', 'a', 'a', 'a']) = .ok true ∧
    matchResult ['a', '*'] (some ['b']) = .ok false ∧
    matchResult ['a', '+'] (some []) = .ok false ∧
    matchResult ['a', '+'] (some ['a']) = .ok true ∧
    matchResult ['a', '+'] (some ['a', 'a', 'a']) = .ok true :=
  ⟨rfl, rfl, rfl, rfl, rfl, rfl, rfl⟩

/-- **C7.** For every machine and every state set, the zero-width closure
and the termination-reachability searches of `check_string` terminate:
each completes within fuel bounded by the finite arena size (worklist
length plus total out-degree, the visited-set argument), extra fuel never
changes the result despite the `*`/`+` self-loop cycles, and the values
used by `check_string` are these completed results. -/
theorem c7_searches_terminate (f : FSM) (states : List Nat) (extra : Nat) :
    (∃ r, epsAux f.nodes (epsBound f.nodes states) states states [] = some r ∧
      epsAux f.nodes (epsBound f.nodes states + extra) states states [] = some r ∧
      addEpsilonTransitions f.nodes states = r) ∧
    (∃ b, termAux f.nodes (termBound f.nodes states) states [] = some b ∧
      termAux f.nodes (termBound f.nodes states + extra) states [] = some b ∧
      canTerminateWithoutInput f.nodes states = b) := by
  have h1 : states.length + unvisitedEdges f.nodes [] < epsBound f.nodes states := by
    unfold epsBound; omega
  obtain ⟨r, hr⟩ := Option.isSome_iff_exists.mp
    (epsAux_isSome (epsBound f.nodes states) f.nodes states states [] h1)
  have h2 : states.length + unvisitedEdges f.nodes [] < termBound f.nodes states := by
    unfold termBound; omega
  obtain ⟨b, hb⟩ := Option.isSome_iff_exists.mp
    (termAux_isSome (termBound f.nodes states) f.nodes states [] h2)
  refine ⟨⟨r, hr, epsAux_mono_add _ _ _ _ _ _ _ hr, ?_⟩,
    ⟨b, hb, termAux_mono_add _ _ _ _ _ _ hb, ?_⟩⟩
  · simp [addEpsilonTransitions, hr]
  · simp [canTerminateWithoutInput, hb]

/-- **C3.** `RegexFSM` compilation fails with the `InvalidPattern`
`ValueError` for: the empty pattern; any pattern whose first character is
`*` or `+`; and any pattern containing a `[` with no `]` before the end of
the pattern (the error raised there is one of the compile-time
`ValueError`s, the unclosed-class one unless a leading `*`/`+` error fires
first). -/
theorem c3_invalid_patterns :
    compile [] = .error .emptyPattern ∧
    (∀ rest, compile ('*' :: rest) = .error .starNoPreceding) ∧
    (∀ rest, compile ('+' :: rest) = .error .plusNoPreceding) ∧
    (∀ p u v, p = u ++ '[' :: v → ']' ∉ v → ∃ e, compile p = .error e) := by
  refine ⟨rfl, fun rest => rfl, fun rest => rfl, fun p u v hp hv => ?_⟩
  have hne : p ≠ [] := by
    rw [hp]; cases u <;> simp
  by_cases h2 : p.head? = some '*'
  · exact ⟨.starNoPreceding, by simp [compile, hne, h2]⟩
  · by_cases h3 : p.head? = some '+'
    · exact ⟨.plusNoPreceding, by simp [compile, hne, h2, h3]⟩
    · obtain ⟨e, he⟩ := unclosed_error p [⟨.start, []⟩] [] none u v hp hv
      exact ⟨e, by simp [compile, hne, h2, h3, he]⟩

/-- Witness for `c3_invalid_patterns` at the concrete patterns of the
specification: ``""``, `*abc`, `+x`, `[abc`. -/
theorem c3_witness :
    compile [] = .error .emptyPattern ∧
    compile ['*', 'a', 'b', 'c'] = .error .starNoPreceding ∧
    compile ['+', 'x'] = .error .plusNoPreceding ∧
    (∃ e, compile ['[', 'a', 'b', 'c'] = .error e) :=
  ⟨c3_invalid_patterns.1, c3_invalid_patterns.2.1 ['a', 'b', 'c'],
    c3_invalid_patterns.2.2.1 ['x'],
    c3_invalid_patterns.2.2.2 ['[', 'a', 'b', 'c'] [] ['a', 'b', 'c'] rfl (by decide)⟩

/-- **C9.** Compilation raises an error only in the three listed cases:
every nonempty pattern not starting with `*`/`+` and with every `[`
followed by a later `]` compiles successfully — including a quantifier
applied to an already-quantified construct (`a**`, `a+*`, wrapping the
existing repeat node in another) and a stray `]` outside a class (a
literal). -/
theorem c9_errors_only_listed :
    (∀ p, p ≠ [] → p.head? ≠ some '*' → p.head? ≠ some '+' →
      (∀ u v, p = u ++ '[' :: v → ']' ∈ v) → ∃ f, compile p = .ok f) ∧
    (∃ f, compile ['a', '*', '*'] = .ok f) ∧
    (∃ f, compile ['a', '+', '*'] = .ok f) ∧
    compile [']'] = .ok ⟨[⟨.start, [1]⟩, ⟨.ascii ']', [2]⟩, ⟨.termination, []⟩]⟩ := by
  refine ⟨fun p hne h2 h3 hcl => ?_, ⟨_, rfl⟩, ⟨_, rfl⟩, rfl⟩
  obtain ⟨out, hout⟩ := loop_ok p [⟨.start, []⟩] [] none
    ((noUnclosed_iff p).mpr hcl) (by simp)
  exact ⟨⟨setNext (out.1 ++ [⟨.termination, []⟩]) (out.2.headD 0)
    (fun l => l ++ [out.1.length])⟩, by simp [compile, hne, h2, h3, hout]⟩

/-- Witness for `c9_errors_only_listed` on the pattern `b[x]`. -/
theorem c9_witness : ∃ f, compile ['b', '[', 'x', ']'] = .ok f :=
  c9_errors_only_listed.1 ['b', '[', 'x', ']'] (by decide) (by decide) (by decide)
    ((noUnclosed_iff ['b', '[', 'x', ']']).mp (by decide))

/-- **C4.** Character-class parsing and acceptance: for every bracket body
and character, the compiled class state built by
`CharacterClassState.__init__` accepts the character exactly as the
specification describes — a leading `^` is consumed and sets `negated`,
the body is scanned into ranges (a character, `-`, and a present third
character, advancing by 3) and singles (advancing by 1, a dangling `-`
degrading to singles), and acceptance is (in some range or in the singles
set) XOR `negated`. -/
theorem c4_char_class_semantics (class_spec : List Char) (c : Char) :
    classCheck (characterClassState class_spec) c = specClassAccepts class_spec c := by
  by_cases hN : class_spec.head? = some '^'
  · dsimp only [classCheck, characterClassState, specClassAccepts]
    simp only [hN, eq_self_iff_true, if_true, decide_True]
    rw [scan_eq_parse class_spec.tail.length class_spec.tail 0 (by omega), List.drop_zero]
    cases hR : (parseClassItems class_spec.tail).1.any
        (fun p => decide (p.1.toNat ≤ c.toNat ∧ c.toNat ≤ p.2.toNat)) <;>
      cases hS : (parseClassItems class_spec.tail).2.contains c <;>
      simp [hR, hS]
  · dsimp only [classCheck, characterClassState, specClassAccepts]
    simp only [if_neg hN]
    rw [scan_eq_parse class_spec.length class_spec 0 (by omega), List.drop_zero]
    cases hR : (parseClassItems class_spec).1.any
        (fun p => decide (p.1.toNat ≤ c.toNat ∧ c.toNat ≤ p.2.toNat)) <;>
      cases hS : (parseClassItems class_spec).2.contains c <;>
      simp [hR, hS, hN]

/-- **C5, counterexample.** The pattern `[z-a]` is accepted by the
compiler, yet its compiled `CharClass` state stores the range entry
`('z', 'a')` with `low > high` in code-point order, refuting the claimed
invariant. -/
theorem c5_counterexample :
    compile ['[', 'z', '-', 'a', ']'] =
      .ok ⟨[⟨.start, [1]⟩, ⟨.charClass ⟨[('z', 'a')], [], false⟩, [2]⟩,
            ⟨.termination, []⟩]⟩ ∧
    compiledRangesSorted ['[', 'z', '-', 'a', ']'] = false :=
  ⟨rfl, rfl⟩

/-- **C5, amended.** Range entries are stored verbatim as scanned from the
class body — the compiler does not check `low ≤ high` — and an entry with
`high < low` in code-point order accepts no character through the range
test. -/
theorem c5_ranges_verbatim (body : List Char) (a b : Char)
    (h : (a, b) ∈ (parseClassItems body).1) :
    (∃ u v, body = u ++ a :: '-' :: b :: v) ∧
    (b.toNat < a.toNat → ∀ c, classCheck ⟨[(a, b)], [], false⟩ c = false) := by
  refine ⟨ranges_from_scan body.length body le_rfl a b h, fun hba c => ?_⟩
  simp [classCheck]
  omega

/-- Witness for `c5_ranges_verbatim` at the class body `z-a`. -/
theorem c5_witness :
    ('z', 'a') ∈ (parseClassItems ['z', '-', 'a']).1 ∧
    ((∃ u v, ['z', '-', 'a'] = u ++ 'z' :: '-' :: 'a' :: v) ∧
      ('a'.toNat < 'z'.toNat →
        ∀ c, classCheck ⟨[('z', 'a')], [], false⟩ c = false)) :=
  ⟨by decide, c5_ranges_verbatim ['z', '-', 'a'] 'z' 'a' (by decide)⟩

/-- **C6.** On any compiled machine, `check_string` with no input value
(`none`, Python `None`) fails with the `InputRequired` `ValueError`, while
the empty string is a legal input that produces an ordinary boolean
verdict. -/
theorem c6_input_required (fsm : FSM) :
    check_string fsm none = .error .inputRequired ∧
    ∃ b, check_string fsm (some []) = .ok b :=
  ⟨rfl, canTerminateWithoutInput fsm.nodes (addEpsilonTransitions fsm.nodes [0]), rfl⟩

/-- **C8.** Compiling the same pattern twice yields machines that accept
exactly the same inputs: `check_string` agrees on every string. -/
theorem c8_recompile_equiv (p : List Char) (f1 f2 : FSM)
    (h1 : compile p = .ok f1) (h2 : compile p = .ok f2) (s : List Char) :
    check_string f1 (some s) = check_string f2 (some s) := by
  cases Except.ok.inj (h1.symm.trans h2)
  rfl

/-- Witness for `c8_recompile_equiv` on the pattern `a` and input `a`. -/
theorem c8_witness :
    check_string ⟨[⟨.start, [1]⟩, ⟨.ascii 'a', [2]⟩, ⟨.termination, []⟩]⟩ (some ['a']) =
      check_string ⟨[⟨.start, [1]⟩, ⟨.ascii 'a', [2]⟩, ⟨.termination, []⟩]⟩ (some ['a']) :=
  c8_recompile_equiv ['a'] _ _ rfl rfl ['a']

/-- **C10.** An empty bracket body is not a compile error: `[]` compiles
to a machine whose class state accepts no character, and `[^]` compiles to
one whose class state accepts every character. -/
theorem c10_empty_class_bodies :
    compile ['[', ']'] =
      .ok ⟨[⟨.start, [1]⟩, ⟨.charClass ⟨[], [], false⟩, [2]⟩, ⟨.termination, []⟩]⟩ ∧
    (∀ c, checkSelf [⟨.start, [1]⟩, ⟨.charClass ⟨[], [], false⟩, [2]⟩,
        ⟨.termination, []⟩] 1 c = false) ∧
    compile ['[', '^', ']'] =
      .ok ⟨[⟨.start, [1]⟩, ⟨.charClass ⟨[], [], true⟩, [2]⟩, ⟨.termination, []⟩]⟩ ∧
    (∀ c, checkSelf [⟨.start, [1]⟩, ⟨.charClass ⟨[], [], true⟩, [2]⟩,
        ⟨.termination, []⟩] 1 c = true) :=
  ⟨rfl, fun _ => rfl, rfl, fun _ => rfl⟩

end Regex
